import Mathlib

/-!
Shallow embedding of `scripts/build_imdb_catalog.py`, the streaming
multi-source join/aggregation pipeline of the repository.

Modelling conventions:
* pandas nullable columns (`Int64`, `string`, `float32`) become `Option`-typed
  fields; a `none` stands for a missing (`NaN`/`<NA>`) cell.  `pd.to_numeric`
  coercion of the year/runtime columns is modelled by reading those fields as
  `Option Int` directly (an unparseable cell is a `none`).
* `float32` average ratings carry no claim-relevant arithmetic, so they are
  modelled as exact `Option Rat` values.
* Python strings are Lean `String`s; the Python primitives used by the script
  (`str.strip`, `str.split`, `str.replace` with one-character arguments,
  `str.lower`, `"sep".join`) are embedded char-by-char on `String.data` so the
  model stays executable and proof-friendly.  `Char.toLower` matches Python's
  lowercasing on the ASCII fragment.
* Each chunked `pd.read_csv` scan of the basics/ratings/crew/principals
  sources applies a per-chunk row filter and concatenates the kept chunks;
  since filtering commutes with concatenation these four sources are modelled
  as flat row lists.  The names source keeps its chunk structure because
  `build_name_map` can break out of the chunk loop early.
-/

namespace IMDbCatalog

/-! ### Configuration (lines 27-31 of the script) -/

def MIN_YEAR : Int := 1980
def MIN_VOTES : Int := 1000
def RUNTIME_MIN : Int := 60
def RUNTIME_MAX : Int := 240
def CAST_TOP_N : Nat := 5

/-! ### Char-level embeddings of the Python string primitives -/

/-- Python `s.replace(sep, " ")` for a one-character `sep`. -/
def replChar (sep : Char) (l : List Char) : List Char :=
  l.map fun c => if c = sep then ' ' else c

/-- Python `s.strip()`: drop leading and trailing whitespace. -/
def trimCh (l : List Char) : List Char :=
  ((l.dropWhile Char.isWhitespace).reverse.dropWhile Char.isWhitespace).reverse

/-- Python `s.split()` (no argument): split on whitespace runs, no empty parts. -/
def wordsCh (l : List Char) : List (List Char) :=
  (l.splitOnP Char.isWhitespace).filter (· ≠ [])

/-- Python `s.strip()` on `String`. -/
def trimS (s : String) : String := ⟨trimCh s.data⟩

/-- Python `"|".join(names)`. -/
def joinBar (ns : List String) : String := ⟨List.intercalate ['|'] (ns.map String.data)⟩

/-- Splitting a joined field back on the `"|"` separator (used to state the
spec's claims about the `castNames` field). -/
def splitBarS (s : String) : List String := (s.data.splitOn '|').map String.mk

/-! ### Row types of the five sources, as read with the script's dtypes -/

structure BasicsRow where
  tconst : String
  titleType : Option String
  primaryTitle : Option String
  isAdult : Option Int
  startYear : Option Int
  runtimeMinutes : Option Int
  genres : Option String
deriving DecidableEq

structure RatingsRow where
  tconst : String
  averageRating : Option Rat
  numVotes : Option Int
deriving DecidableEq

structure CrewRow where
  tconst : String
  directors : Option String
deriving DecidableEq

structure PrincipalsRow where
  tconst : String
  ordering : Option Int
  nconst : String
  category : Option String
deriving DecidableEq

structure NameRow where
  nconst : Option String
  primaryName : Option String
deriving DecidableEq

/-- The five raw sources.  `names` keeps its chunk structure (see above). -/
structure Inputs where
  basics : List BasicsRow
  ratings : List RatingsRow
  crew : List CrewRow
  principals : List PrincipalsRow
  names : List (List NameRow)

/-! ### Utility functions of the script -/

/-- `split_imdb_list` (lines 70-79): `None` models a non-`str` (missing) cell. -/
def split_imdb_list (value : Option String) : List String :=
  match value with
  | none => []
  | some v =>
    if v == "\\N" || trimS v == "" then []
    else ((v.data.splitOn ',').map fun t => trimS ⟨t⟩).filter (· != "")

/-- `Series.astype(str)` on a nullable string cell: pandas renders `pd.NA`
as the literal text `"<NA>"` (line 337 feeds that to `split_imdb_list`). -/
def pdStr : Option String → String
  | none => "<NA>"
  | some s => s

/-! ### Stage 1: `load_filtered_basics` (lines 90-153) -/

/-- The "Option A" row mask of lines 129-141. -/
def basicsPred (r : BasicsRow) : Bool :=
  r.titleType == some "movie" &&
  r.isAdult.getD 1 == 0 &&
  r.primaryTitle.isSome && trimS (r.primaryTitle.getD "") != "" &&
  r.startYear.isSome && decide (MIN_YEAR ≤ r.startYear.getD 0) &&
  r.runtimeMinutes.isSome &&
    decide (RUNTIME_MIN ≤ r.runtimeMinutes.getD 0) &&
    decide (r.runtimeMinutes.getD 0 ≤ RUNTIME_MAX) &&
  r.genres.isSome && r.genres.getD "" != "\\N"

/-- Helper for `dedupByKey`: `seen` is the set of keys already emitted. -/
def dedupByKeyAux (key : α → String) (seen : List String) : List α → List α
  | [] => []
  | x :: xs =>
    if seen.contains (key x) then dedupByKeyAux key seen xs
    else x :: dedupByKeyAux key (key x :: seen) xs

/-- `DataFrame.drop_duplicates(subset=[key])`: keep the first row per key. -/
def dedupByKey (key : α → String) (l : List α) : List α :=
  dedupByKeyAux key [] l

/-- Filter every chunk by the mask, concatenate, drop duplicate keys. -/
def load_filtered_basics (rows : List BasicsRow) : List BasicsRow :=
  dedupByKey (·.tconst) (rows.filter basicsPred)

def basicsKept (I : Inputs) : List BasicsRow := load_filtered_basics I.basics

def tset1 (I : Inputs) : List String := (basicsKept I).map (·.tconst)

/-! ### Stage 2: `load_ratings_for_tconst` + votes filter (lines 159-186, 316-327) -/

def ratingsMatched (I : Inputs) : List RatingsRow :=
  I.ratings.filter fun r => (tset1 I).contains r.tconst

/-- `movies["numVotes"].notna() & (movies["numVotes"] >= MIN_VOTES)`. -/
def votesOk (r : RatingsRow) : Bool :=
  r.numVotes.isSome && decide (MIN_VOTES ≤ r.numVotes.getD 0)

/-- `pandas.merge(..., how="inner")`: for each left row, one output row per
matching right row, in left-frame order. -/
def innerMerge (L : List α) (R : List β) (ka : α → String) (kb : β → String) :
    List (α × β) :=
  L.flatMap fun a => (R.filter fun b => kb b == ka a).map fun b => (a, b)

/-- `pandas.merge(..., how="left")`: unmatched left rows survive with `none`. -/
def leftMerge (L : List α) (R : List β) (ka : α → String) (kb : β → String) :
    List (α × Option β) :=
  L.flatMap fun a =>
    match R.filter fun b => kb b == ka a with
    | [] => [(a, none)]
    | bs => bs.map fun b => (a, some b)

def moviesJoined (I : Inputs) : List (BasicsRow × RatingsRow) :=
  innerMerge (basicsKept I) (ratingsMatched I) (·.tconst) (·.tconst)

def movies1 (I : Inputs) : List (BasicsRow × RatingsRow) :=
  (moviesJoined I).filter fun p => votesOk p.2

def tset2 (I : Inputs) : List String := (movies1 I).map (·.1.tconst)

/-! ### Stage 3: `load_directors_for_tconst` (lines 192-216, 329-330) -/

def crewMatched (I : Inputs) : List CrewRow :=
  I.crew.filter fun r => (tset2 I).contains r.tconst

/-! ### Stage 4: `load_cast_topn_for_tconst` (lines 222-267, 332-333) -/

/-- Row mask of lines 246-251. -/
def principalsPred (S : List String) (r : PrincipalsRow) : Bool :=
  S.contains r.tconst &&
  (r.category == some "actor" || r.category == some "actress") &&
  r.ordering.isSome && decide (r.ordering.getD 0 ≤ (CAST_TOP_N : Int))

/-- Comparison on the nullable `ordering` column (all values are present after
the mask; the `none` cases only make the comparison total). -/
def oLe : Option Int → Option Int → Bool
  | none, _ => true
  | some _, none => false
  | some a, some b => decide (a ≤ b)

/-- The `sort_values(["tconst", "ordering"], kind="mergesort")` comparator. -/
def pLe (a b : PrincipalsRow) : Bool :=
  decide (a.tconst < b.tconst) || (a.tconst == b.tconst && oLe a.ordering b.ordering)

/-- Insert `x` into `l` before the first element it compares `le` to. -/
def oInsert (le : α → α → Bool) (x : α) : List α → List α
  | [] => [x]
  | y :: ys => if le x y then x :: y :: ys else y :: oInsert le x ys

/-- `sort_values(..., kind="mergesort")` is a stable sort by the comparator;
it is embedded as stable insertion sort, the same function on lists. -/
def stableSort (le : α → α → Bool) : List α → List α
  | [] => []
  | x :: xs => oInsert le x (stableSort le xs)

def principalsFiltered (I : Inputs) : List PrincipalsRow :=
  I.principals.filter (principalsPred (tset2 I))

def principalsSorted (I : Inputs) : List PrincipalsRow :=
  stableSort pLe (principalsFiltered I)

/-! ### Stage 5: `build_name_map` (lines 273-303, 336-349) -/

def director_nconst (I : Inputs) : List String :=
  (crewMatched I).flatMap fun r => split_imdb_list (some (pdStr r.directors))

def cast_nconst (I : Inputs) : List String :=
  (principalsSorted I).map (·.nconst)

/-- Python `set` union, modelled as a first-occurrence-deduplicated list. -/
def needed_nconst (I : Inputs) : List String :=
  dedupByKey id (director_nconst I ++ cast_nconst I)

/-- `dict` lookup `name_map.get(k)`; insertion order is preserved, so the
first (and only) matching key holds the value. -/
def lookupName (m : List (String × String)) (k : String) : Option String :=
  (m.find? fun p => p.1 == k).map (·.2)

/-- `mapping[k] = v` on a Python dict: update in place or append. -/
def insertName (m : List (String × String)) (k v : String) : List (String × String) :=
  if m.any fun p => p.1 == k then m.map fun p => if p.1 == k then (k, v) else p
  else m ++ [(k, v)]

/-- One row of the names scan: keep it if its id is needed and both fields
are present (the `isin` filter plus the `pd.notna` checks of lines 290-293). -/
def stepName (needed : List String) (m : List (String × String)) (r : NameRow) :
    List (String × String) :=
  match r.nconst, r.primaryName with
  | some k, some v => if needed.contains k then insertName m k v else m
  | _, _ => m

/-- One chunk of the names scan (lines 290-294). -/
def processNameChunk (needed : List String) (m : List (String × String))
    (chunk : List NameRow) : List (String × String) :=
  chunk.foldl (stepName needed) m

/-- The chunk loop with the early break of lines 298-300. -/
def nameMapLoop (needed : List String) :
    List (String × String) → List (List NameRow) → List (String × String)
  | m, [] => m
  | m, c :: cs =>
    let m' := processNameChunk needed m c
    if needed.length ≤ m'.length then m' else nameMapLoop needed m' cs

def build_name_map (needed : List String) (chunks : List (List NameRow)) :
    List (String × String) :=
  nameMapLoop needed [] chunks

/-- Reference scan for the refinement claim: the same per-chunk processing but
with no early termination, following the spec's words "a scan of the entire
people source without early termination". -/
def full_scan_name_map (needed : List String) (chunks : List (List NameRow)) :
    List (String × String) :=
  chunks.foldl (processNameChunk needed) []

def name_map (I : Inputs) : List (String × String) :=
  build_name_map (needed_nconst I) I.names

/-! ### Stage 6: assembly (lines 352-424) -/

/-- `directors_to_names` (lines 352-356): resolve ids, drop falsy names
(`if n` drops both an unresolved `None` and an empty string), join. -/
def directors_to_names (nm : List (String × String)) (directors_field : Option String) :
    String :=
  joinBar (((((split_imdb_list directors_field).map (lookupName nm)).filterMap id).filter
    (· != "")))

def crewNames (I : Inputs) : List (String × String) :=
  (crewMatched I).map fun r => (r.tconst, directors_to_names (name_map I) r.directors)

/-- `principals["nconst"].map(name_map).fillna("")` (line 362). -/
def principalsNamed (I : Inputs) : List (PrincipalsRow × String) :=
  (principalsSorted I).map fun r => (r, (lookupName (name_map I) r.nconst).getD "")

/-- Line 363: keep rows whose resolved name is not blank. -/
def principalsNonblank (I : Inputs) : List (PrincipalsRow × String) :=
  (principalsNamed I).filter fun p => trimS p.2 != ""

def pLe2 (a b : PrincipalsRow × String) : Bool := pLe a.1 b.1

/-- The second stable sort of line 366. -/
def principalsSorted2 (I : Inputs) : List (PrincipalsRow × String) :=
  stableSort pLe2 (principalsNonblank I)

/-- `groupby("tconst")` group keys (sorted input, so first-occurrence order). -/
def castKeys (I : Inputs) : List String :=
  dedupByKey id ((principalsSorted2 I).map (·.1.tconst))

/-- One group of the `groupby`: the resolved names of a key, in frame order. -/
def castGroup (I : Inputs) (t : String) : List String :=
  ((principalsSorted2 I).filter fun p => p.1.tconst == t).map (·.2)

/-- `cast_agg` (lines 365-371): per key, join the first `CAST_TOP_N` names. -/
def cast_agg (I : Inputs) : List (String × String) :=
  (castKeys I).map fun t => (t, joinBar ((castGroup I t).take CAST_TOP_N))

def withCrew (I : Inputs) : List ((BasicsRow × RatingsRow) × Option (String × String)) :=
  leftMerge (movies1 I) (crewNames I) (fun p => p.1.tconst) (·.1)

def withCast (I : Inputs) :
    List (((BasicsRow × RatingsRow) × Option (String × String)) × Option (String × String)) :=
  leftMerge (withCrew I) (cast_agg I) (fun p => p.1.1.tconst) (·.1)

structure CatalogEntry where
  tconst : String
  primaryTitle : String
  startYear : Int
  runtimeMinutes : Int
  genres : String
  averageRating : Option Rat
  numVotes : Int
  director_names : String
  cast_names_top5 : String
deriving DecidableEq

structure FeatureEntry where
  tconst : String
  soup : String
deriving DecidableEq

/-- Column selection of lines 374-396; the `fillna("")` of lines 377-378 is the
`getD ""` on the two merged credit columns. -/
def mkCatalogEntry
    (p : ((BasicsRow × RatingsRow) × Option (String × String)) × Option (String × String)) :
    CatalogEntry :=
  { tconst := p.1.1.1.tconst
    primaryTitle := p.1.1.1.primaryTitle.getD ""
    startYear := p.1.1.1.startYear.getD 0
    runtimeMinutes := p.1.1.1.runtimeMinutes.getD 0
    genres := p.1.1.1.genres.getD ""
    averageRating := p.1.1.2.averageRating
    numVotes := p.1.1.2.numVotes.getD 0
    director_names := (p.1.2.map (·.2)).getD ""
    cast_names_top5 := (p.2.map (·.2)).getD "" }

/-- The catalog output (`movies_local.csv.gz` rows). -/
def catalog (I : Inputs) : List CatalogEntry := (withCast I).map mkCatalogEntry

/-- `build_soup` (lines 399-409): replace list separators, join with spaces,
strip, lowercase, collapse whitespace. -/
def build_soup (genres dn cn : String) : String :=
  let joined := replChar ',' genres.data ++ ' ' :: replChar '|' dn.data ++
    ' ' :: replChar '|' cn.data
  ⟨List.intercalate [' '] (wordsCh ((trimCh joined).map Char.toLower))⟩

/-- The feature output (`movies_features.csv.gz` rows, lines 411-416). -/
def features (I : Inputs) : List FeatureEntry :=
  (catalog I).map fun e =>
    { tconst := e.tconst, soup := build_soup e.genres e.director_names e.cast_names_top5 }

def runPipeline (I : Inputs) : List CatalogEntry × List FeatureEntry :=
  (catalog I, features I)

/-! ### `ensure_files_exist` and the top of `main` (lines 56-62, 309-310) -/

def RAW_PATHS : List String :=
  ["data/data_raw/title.basics.tsv.gz",
   "data/data_raw/title.ratings.tsv.gz",
   "data/data_raw/title.crew.tsv.gz",
   "data/data_raw/title.principals.tsv.gz",
   "data/data_raw/name.basics.tsv.gz"]

def missingMsg (missing : List String) : String :=
  "Fichier(s) requis manquant(s) dans data/data_raw:\n- " ++
    String.intercalate "\n- " missing

/-- `ensure_files_exist`: collect every missing path, then fail once with the
full listing, or return silently. `exF` is the file-existence oracle. -/
def ensure_files_exist (exF : String → Bool) (paths : List String) : Except String Unit :=
  let missing := paths.filter fun p => !exF p
  if missing = [] then .ok () else .error (missingMsg missing)

/-- `main`: the existence check runs before any stage touches data. -/
def mainRun (exF : String → Bool) (I : Inputs) :
    Except String (List CatalogEntry × List FeatureEntry) :=
  match ensure_files_exist exF RAW_PATHS with
  | .error e => .error e
  | .ok _ => .ok (runPipeline I)

/-- The per-string soup normalization of the Assembly stage, as the spec
describes it: replace both list separators by spaces, strip, lowercase,
collapse whitespace runs to single spaces. -/
def normalizeCh (l : List Char) : List Char :=
  List.intercalate [' '] (wordsCh ((trimCh (replChar '|' (replChar ',' l))).map Char.toLower))

def soup_normalize (s : String) : String := ⟨normalizeCh s.data⟩

/-! ### Concrete inputs used by the scenario claims -/

/-- The title row of the spec's end-to-end scenario. -/
def c2Basics : BasicsRow :=
  { tconst := "t1", titleType := some "movie", primaryTitle := some "X",
    isAdult := some 0, startYear := some 1999, runtimeMinutes := some 120,
    genres := some "Drama" }

def c2Ratings : RatingsRow :=
  { tconst := "t1", averageRating := some (Rat.mk' 15 2), numVotes := some 5000 }

def c2Crew : CrewRow := { tconst := "t1", directors := some "p1,p2" }

def c2Principal3 : PrincipalsRow :=
  { tconst := "t1", ordering := some 1, nconst := "p3", category := some "actor" }

def c2Principal9 : PrincipalsRow :=
  { tconst := "t1", ordering := some 6, nconst := "p9", category := some "actor" }

def c2Inputs : Inputs :=
  { basics := [c2Basics], ratings := [c2Ratings], crew := [c2Crew],
    principals := [c2Principal3, c2Principal9],
    names := [[{ nconst := some "p1", primaryName := some "A" },
               { nconst := some "p3", primaryName := some "C" }]] }

/-- A run whose only title has a qualifying rating but no principal rows at
all: its catalog entry survives with an empty `cast_names_top5`. -/
def c3CexInputs : Inputs :=
  { basics := [c2Basics], ratings := [c2Ratings], crew := [], principals := [],
    names := [[]] }

/-- Inputs with every source empty (used for the error-handling witnesses). -/
def emptyInputs : Inputs :=
  { basics := [], ratings := [], crew := [], principals := [], names := [] }

/-- The spec-side cast-name list of a title: the resolved, blank-skipped
acting-role names of the key in ascending-position frame order, truncated to
the top-N bound (§4.5 of the spec restricts the stage to positions ≤ N). -/
def castNamesSpecList (I : Inputs) (t : String) : List String :=
  (castGroup I t).take CAST_TOP_N

/-! ### Helper lemmas about `dedupByKey` -/

theorem mem_of_mem_dedupByKeyAux {key : α → String} :
    ∀ {l : List α} {seen : List String} {x : α},
      x ∈ dedupByKeyAux key seen l → x ∈ l := by
  intro l
  induction l with
  | nil => intro seen x h; simp [dedupByKeyAux] at h
  | cons a as ih =>
    intro seen x h
    rw [dedupByKeyAux] at h
    split at h
    · exact List.mem_cons_of_mem a (ih h)
    · rcases List.mem_cons.mp h with h | h
      · exact h ▸ List.mem_cons_self a as
      · exact List.mem_cons_of_mem a (ih h)

theorem mem_of_mem_dedupByKey {key : α → String} {l : List α} {x : α}
    (h : x ∈ dedupByKey key l) : x ∈ l :=
  mem_of_mem_dedupByKeyAux h

theorem key_mem_dedupByKeyAux_iff {key : α → String} :
    ∀ {l : List α} {seen : List String} {k : String},
      (k ∈ (dedupByKeyAux key seen l).map key) ↔ k ∈ l.map key ∧ k ∉ seen := by
  intro l
  induction l with
  | nil => intro seen k; simp [dedupByKeyAux]
  | cons a as ih =>
    intro seen k
    rw [dedupByKeyAux]
    split
    · rename_i hseen
      rw [ih]
      simp only [List.map_cons, List.mem_cons]
      constructor
      · rintro ⟨h, hk⟩; exact ⟨Or.inr h, hk⟩
      · rintro ⟨h | h, hk⟩
        · exact absurd (h ▸ List.contains_iff_exists_mem_beq.mp hseen) (by simpa using hk)
        · exact ⟨h, hk⟩
    · rename_i hseen
      simp only [List.map_cons, List.mem_cons, ih]
      constructor
      · rintro (rfl | ⟨h, hk⟩)
        · refine ⟨Or.inl rfl, fun hk => hseen ?_⟩
          exact List.contains_iff_exists_mem_beq.mpr ⟨_, hk, by simp⟩
        · exact ⟨Or.inr h, fun hmem => hk (Or.inr hmem)⟩
      · rintro ⟨rfl | h, hk⟩
        · exact Or.inl rfl
        · by_cases hka : k = key a
          · exact Or.inl hka
          · exact Or.inr ⟨h, fun hmem => hmem.elim hka hk⟩

theorem key_mem_dedupByKey_iff {key : α → String} {l : List α} {k : String} :
    (k ∈ (dedupByKey key l).map key) ↔ k ∈ l.map key := by
  rw [dedupByKey, key_mem_dedupByKeyAux_iff]
  simp

theorem keys_nodup_dedupByKeyAux {key : α → String} :
    ∀ {l : List α} {seen : List String},
      ((dedupByKeyAux key seen l).map key).Nodup := by
  intro l
  induction l with
  | nil => intro seen; simp [dedupByKeyAux]
  | cons a as ih =>
    intro seen
    rw [dedupByKeyAux]
    split
    · exact ih
    · simp only [List.map_cons, List.nodup_cons]
      refine ⟨fun h => ?_, ih⟩
      have := (key_mem_dedupByKeyAux_iff.mp h).2
      exact this (List.mem_cons_self _ _)

theorem keys_nodup_dedupByKey {key : α → String} {l : List α} :
    ((dedupByKey key l).map key).Nodup :=
  keys_nodup_dedupByKeyAux

theorem forall_mem_dedupByKey {key : α → String} {q : α → Prop} {l : List α}
    (hq : ∀ x ∈ l, q x) : ∀ x ∈ dedupByKey key l, q x :=
  fun x hx => hq x (mem_of_mem_dedupByKey hx)

/-! ### Claim theorems: scenario run, adult flag, key sets, missing inputs -/

/-- C2: on the scenario input (movie "X", 1999, 120 min, Drama, rating
7.5/5000 votes, directors `p1,p2`, acting principals `p3` at position 1 and
`p9` at position 6, names resolving only `p1 ↦ "A"` and `p3 ↦ "C"`), the
pipeline emits exactly one catalog entry, with `director_names = "A"` (p2
unresolved, dropped) and `cast_names_top5 = "C"` (p9 beyond the top-5 cut). -/
theorem c2_scenario_pipeline :
    (catalog c2Inputs).length = 1 ∧
    (catalog c2Inputs).map (·.tconst) = ["t1"] ∧
    (catalog c2Inputs).map (·.director_names) = ["A"] ∧
    (catalog c2Inputs).map (·.cast_names_top5) = ["C"] ∧
    (catalog c2Inputs).map (·.primaryTitle) = ["X"] ∧
    (catalog c2Inputs).map (·.startYear) = [1999] ∧
    (catalog c2Inputs).map (·.runtimeMinutes) = [120] ∧
    (catalog c2Inputs).map (·.genres) = ["Drama"] ∧
    (catalog c2Inputs).map (·.numVotes) = [5000] ∧
    (catalog c2Inputs).map (·.averageRating) = [some (Rat.mk' 15 2)] := by
  decide

/-- C6: a title row whose adult flag is missing fails the title mask (the
mask fills the missing flag with 1, which is not 0), and every row of the
title stage's candidate output passes the mask — so such a row is excluded. -/
theorem c6_missing_adult_excluded :
    (∀ r : BasicsRow, r.isAdult = none → basicsPred r = false) ∧
    (∀ rows : List BasicsRow, ∀ x ∈ load_filtered_basics rows, basicsPred x = true) := by
  constructor
  · intro r h
    simp [basicsPred, h]
  · intro rows x hx
    exact (List.mem_filter.mp (mem_of_mem_dedupByKey hx)).2

theorem c6_witness :
    basicsPred { c2Basics with isAdult := none } = false :=
  c6_missing_adult_excluded.1 _ rfl

/-- C8: the feature output has exactly the catalog output's keys, in the same
order and with the same cardinality. -/
theorem c8_feature_keys_eq_catalog_keys (I : Inputs) :
    (features I).map (·.tconst) = (catalog I).map (·.tconst) ∧
    (features I).length = (catalog I).length := by
  constructor
  · simp [features]
  · simp [features]

/-- C9: `main` validates the five input paths up front: it succeeds exactly
when all five exist; if any is absent it fails — for every possible source
contents, hence before any stage processes data — with a message listing all
missing paths at once, and every absent path is in that listing. -/
theorem c9_missing_input_check (exF : String → Bool) (I : Inputs) :
    (ensure_files_exist exF RAW_PATHS = .ok () ↔ ∀ p ∈ RAW_PATHS, exF p = true) ∧
    ((RAW_PATHS.filter fun p => !exF p) ≠ [] →
      mainRun exF I = .error (missingMsg (RAW_PATHS.filter fun p => !exF p))) ∧
    ((∀ p ∈ RAW_PATHS, exF p = true) → mainRun exF I = .ok (runPipeline I)) ∧
    (∀ p ∈ RAW_PATHS, exF p = false → p ∈ RAW_PATHS.filter fun p => !exF p) := by
  have hiff : (RAW_PATHS.filter fun p => !exF p) = [] ↔ ∀ p ∈ RAW_PATHS, exF p = true := by
    rw [List.filter_eq_nil_iff]
    simp
  refine ⟨?_, ?_, ?_, ?_⟩
  · by_cases h0 : (RAW_PATHS.filter fun p => !exF p) = []
    · have hok : ensure_files_exist exF RAW_PATHS = .ok () := by
        simp [ensure_files_exist, h0]
      exact iff_of_true hok (hiff.mp h0)
    · simp only [ensure_files_exist, if_neg h0]
      constructor
      · intro h
        exact absurd h (by simp)
      · intro hall
        exact absurd (hiff.mpr hall) h0
  · intro hne
    simp [mainRun, ensure_files_exist, hne]
  · intro hall
    simp [mainRun, ensure_files_exist, hiff.mpr hall]
  · intro p hp hfalse
    exact List.mem_filter.mpr ⟨hp, by simp [hfalse]⟩

theorem lookupName_mem {nm : List (String × String)} {k v : String}
    (h : lookupName nm k = some v) : ∃ q ∈ nm, q.2 = v := by
  rcases Option.map_eq_some'.mp h with ⟨q, hq, rfl⟩
  exact ⟨q, List.mem_of_find?_eq_some hq, rfl⟩

/-- C7: `directorNames` is the join of the resolved names of the field's ids
in original order with unresolved ids dropped (provided the name mapping has
no empty-string values, which the TSV reader cannot produce), and the `"\N"`
sentinel, blank fields and missing fields all parse to an empty director
list and an empty `directorNames` string. -/
theorem c7_director_names (nm : List (String × String)) (d : Option String)
    (hval : ∀ q ∈ nm, q.2 ≠ "") :
    directors_to_names nm d =
      joinBar ((split_imdb_list d).filterMap (lookupName nm)) ∧
    split_imdb_list none = [] ∧
    split_imdb_list (some "\\N") = [] ∧
    (∀ s : String, trimS s = "" → split_imdb_list (some s) = []) ∧
    directors_to_names nm (some "\\N") = "" ∧
    directors_to_names nm none = "" := by
  refine ⟨?_, rfl, by decide, ?_, rfl, rfl⟩
  · unfold directors_to_names
    rw [List.filterMap_map]
    have hid : ((split_imdb_list d).filterMap (id ∘ lookupName nm)) =
        (split_imdb_list d).filterMap (lookupName nm) := rfl
    rw [hid, List.filter_eq_self.mpr]
    intro v hv
    rcases List.mem_filterMap.mp hv with ⟨i, _, hlook⟩
    rcases lookupName_mem hlook with ⟨q, hq, rfl⟩
    simpa using hval q hq
  · intro s hs
    simp [split_imdb_list, hs]

theorem c7_witness :
    directors_to_names [("p1", "A")] (some "p1,p2") =
      joinBar ((split_imdb_list (some "p1,p2")).filterMap (lookupName [("p1", "A")])) :=
  (c7_director_names [("p1", "A")] (some "p1,p2") (by decide)).1

theorem c9_witness :
    mainRun (fun p => p == "data/data_raw/title.basics.tsv.gz") emptyInputs =
      .error (missingMsg (RAW_PATHS.filter
        fun p => !(p == "data/data_raw/title.basics.tsv.gz"))) ∧
    mainRun (fun _ => true) emptyInputs = .ok (runPipeline emptyInputs) := by
  constructor
  · exact (c9_missing_input_check _ emptyInputs).2.1 (by decide)
  · exact (c9_missing_input_check _ emptyInputs).2.2.1 (by decide)

/-! ### Helper lemmas for the name-resolution scan (claim C5) -/

theorem insertName_keys_pos {m : List (String × String)} {k v : String}
    (h : (m.any fun p => p.1 == k) = true) :
    (insertName m k v).map (·.1) = m.map (·.1) := by
  unfold insertName
  rw [if_pos h, List.map_map]
  apply List.map_congr_left
  intro p _
  by_cases hb : (p.1 == k) = true
  · simp only [Function.comp_apply, if_pos hb]
    exact (eq_of_beq hb).symm
  · simp only [Function.comp_apply, if_neg hb]

theorem insertName_keys_neg {m : List (String × String)} {k v : String}
    (h : ¬(m.any fun p => p.1 == k) = true) :
    (insertName m k v).map (·.1) = m.map (·.1) ++ [k] := by
  unfold insertName
  rw [if_neg h]
  simp

theorem mem_keys_insertName {m : List (String × String)} {k v k' : String} :
    k' ∈ (insertName m k v).map (·.1) ↔ k' ∈ m.map (·.1) ∨ k' = k := by
  by_cases h : (m.any fun p => p.1 == k) = true
  · rw [insertName_keys_pos h]
    constructor
    · exact Or.inl
    · rintro (hm | rfl)
      · exact hm
      · rcases List.any_eq_true.mp h with ⟨p, hp, hpk⟩
        exact List.mem_map.mpr ⟨p, hp, eq_of_beq hpk⟩
  · rw [insertName_keys_neg h]
    simp

theorem nodup_keys_insertName {m : List (String × String)} {k v : String}
    (hnod : (m.map (·.1)).Nodup) : ((insertName m k v).map (·.1)).Nodup := by
  by_cases h : (m.any fun p => p.1 == k) = true
  · rwa [insertName_keys_pos h]
  · rw [insertName_keys_neg h]
    rw [List.nodup_append]
    refine ⟨hnod, List.nodup_singleton _, ?_⟩
    intro x hx hxk
    rcases List.mem_map.mp hx with ⟨p, hp, rfl⟩
    exact h (List.any_eq_true.mpr ⟨p, hp, by simp [List.mem_singleton.mp hxk]⟩)

theorem mem_insertName {m : List (String × String)} {k v : String} {q : String × String}
    (hq : q ∈ insertName m k v) : q ∈ m ∨ q = (k, v) := by
  unfold insertName at hq
  split at hq
  · rcases List.mem_map.mp hq with ⟨p, hp, hpe⟩
    by_cases hb : (p.1 == k) = true
    · rw [if_pos hb] at hpe
      exact Or.inr hpe.symm
    · rw [if_neg hb] at hpe
      exact Or.inl (hpe ▸ hp)
  · rcases List.mem_append.mp hq with h | h
    · exact Or.inl h
    · exact Or.inr (List.mem_singleton.mp h)

theorem stepName_cases (needed : List String) (m : List (String × String)) (r : NameRow) :
    stepName needed m r = m ∨
    ∃ k v, r.nconst = some k ∧ r.primaryName = some v ∧ k ∈ needed ∧
      stepName needed m r = insertName m k v := by
  unfold stepName
  rcases hk : r.nconst with _ | k
  · exact Or.inl rfl
  · rcases hv : r.primaryName with _ | v
    · exact Or.inl rfl
    · by_cases hc : needed.contains k = true
      · refine Or.inr ⟨k, v, rfl, rfl, ?_, ?_⟩
        · rcases List.contains_iff_exists_mem_beq.mp hc with ⟨a, ha, hab⟩
          exact (eq_of_beq hab) ▸ ha
        · show (if needed.contains k = true then insertName m k v else m) = insertName m k v
          exact if_pos hc
      · refine Or.inl ?_
        show (if needed.contains k = true then insertName m k v else m) = m
        exact if_neg hc

theorem processNameChunk_nil (needed : List String) (m : List (String × String)) :
    processNameChunk needed m [] = m := rfl

theorem processNameChunk_cons (needed : List String) (m : List (String × String))
    (r : NameRow) (c : List NameRow) :
    processNameChunk needed m (r :: c) = processNameChunk needed (stepName needed m r) c := rfl

theorem mem_keys_processNameChunk {needed : List String} :
    ∀ {c : List NameRow} {m : List (String × String)} {k' : String},
      k' ∈ (processNameChunk needed m c).map (·.1) →
      k' ∈ m.map (·.1) ∨ (k' ∈ c.filterMap (fun r => r.nconst) ∧ k' ∈ needed) := by
  intro c
  induction c with
  | nil => exact fun h => Or.inl h
  | cons r c ih =>
    intro m k' h
    rw [processNameChunk_cons] at h
    rcases ih h with h2 | h2
    · rcases stepName_cases needed m r with hs | ⟨k, v, hk, hv, hkn, hs⟩
      · exact Or.inl (hs ▸ h2)
      · rw [hs] at h2
        rcases mem_keys_insertName.mp h2 with h3 | rfl
        · exact Or.inl h3
        · exact Or.inr ⟨List.mem_filterMap.mpr ⟨r, List.mem_cons_self _ _, hk⟩, hkn⟩
    · exact Or.inr ⟨by
        rcases List.mem_filterMap.mp h2.1 with ⟨r', hr', hr'k⟩
        exact List.mem_filterMap.mpr ⟨r', List.mem_cons_of_mem _ hr', hr'k⟩, h2.2⟩

theorem keys_sub_needed_processNameChunk {needed : List String}
    {c : List NameRow} {m : List (String × String)}
    (hm : ∀ k ∈ m.map (·.1), k ∈ needed) :
    ∀ k ∈ (processNameChunk needed m c).map (·.1), k ∈ needed := by
  intro k hk
  rcases mem_keys_processNameChunk hk with h | h
  · exact hm k h
  · exact h.2

theorem nodup_keys_processNameChunk {needed : List String} :
    ∀ {c : List NameRow} {m : List (String × String)},
      (m.map (·.1)).Nodup → ((processNameChunk needed m c).map (·.1)).Nodup := by
  intro c
  induction c with
  | nil => exact fun h => h
  | cons r c ih =>
    intro m hm
    rw [processNameChunk_cons]
    rcases stepName_cases needed m r with hs | ⟨k, v, _, _, _, hs⟩
    · rw [hs]
      exact ih hm
    · rw [hs]
      exact ih (nodup_keys_insertName hm)

theorem processNameChunk_of_no_needed {needed : List String} :
    ∀ {c : List NameRow} {m : List (String × String)},
      (∀ r ∈ c, ∀ k, r.nconst = some k → k ∉ needed) →
      processNameChunk needed m c = m := by
  intro c
  induction c with
  | nil => exact fun _ => rfl
  | cons r c ih =>
    intro m hc
    rw [processNameChunk_cons]
    have hstep : stepName needed m r = m := by
      rcases stepName_cases needed m r with hs | ⟨k, v, hk, _, hkn, _⟩
      · exact hs
      · exact absurd hkn (hc r (List.mem_cons_self _ _) k hk)
    rw [hstep]
    exact ih fun r' hr' => hc r' (List.mem_cons_of_mem _ hr')

theorem foldl_processNameChunk_of_no_needed {needed : List String} :
    ∀ {cs : List (List NameRow)} {m : List (String × String)},
      (∀ c ∈ cs, ∀ r ∈ c, ∀ k, r.nconst = some k → k ∉ needed) →
      cs.foldl (processNameChunk needed) m = m := by
  intro cs
  induction cs with
  | nil => exact fun _ => rfl
  | cons c cs ih =>
    intro m hcs
    rw [List.foldl_cons, processNameChunk_of_no_needed (hcs c (List.mem_cons_self _ _))]
    exact ih fun c' hc' => hcs c' (List.mem_cons_of_mem _ hc')

theorem subset_of_nodup_length {A B : List String} (hA : A.Nodup) (hB : B.Nodup)
    (hsub : ∀ k ∈ A, k ∈ B) (hlen : B.length ≤ A.length) : ∀ k ∈ B, k ∈ A := by
  have hsubF : A.toFinset ⊆ B.toFinset := fun x hx =>
    List.mem_toFinset.mpr (hsub x (List.mem_toFinset.mp hx))
  have hcard : B.toFinset.card ≤ A.toFinset.card := by
    rw [List.toFinset_card_of_nodup hA, List.toFinset_card_of_nodup hB]
    exact hlen
  have heq := Finset.eq_of_subset_of_card_le hsubF hcard
  intro k hk
  exact List.mem_toFinset.mp (heq ▸ List.mem_toFinset.mpr hk)

theorem nameMapLoop_eq_foldl {needed : List String} (hn : needed.Nodup) :
    ∀ (chunks : List (List NameRow)) (m : List (String × String)),
      (∀ k ∈ m.map (·.1), k ∈ needed) →
      (m.map (·.1)).Nodup →
      (∀ k ∈ m.map (·.1), ∀ c ∈ chunks, k ∉ c.filterMap (fun r => r.nconst)) →
      (chunks.flatten.filterMap (fun r => r.nconst)).Nodup →
      nameMapLoop needed m chunks = chunks.foldl (processNameChunk needed) m := by
  intro chunks
  induction chunks with
  | nil => intros; rfl
  | cons c cs ih =>
    intro m hsub hnod hfresh hids
    have hidsapp : (c.filterMap (fun r => r.nconst) ++
        (cs.flatten.filterMap (fun r => r.nconst))).Nodup := by
      rw [← List.filterMap_append, ← List.flatten_cons]
      exact hids
    have hdisj := (List.nodup_append.mp hidsapp).2.2
    have hids' := (List.nodup_append.mp hidsapp).2.1
    have hsub' := @keys_sub_needed_processNameChunk needed c m hsub
    have hnod' := @nodup_keys_processNameChunk needed c m hnod
    have hfresh' : ∀ k ∈ (processNameChunk needed m c).map (·.1),
        ∀ c' ∈ cs, k ∉ c'.filterMap (fun r => r.nconst) := by
      intro k hk c' hc' hmem
      have hflat : k ∈ cs.flatten.filterMap (fun r => r.nconst) := by
        rcases List.mem_filterMap.mp hmem with ⟨r', hr', hr'k⟩
        exact List.mem_filterMap.mpr ⟨r', List.mem_flatten.mpr ⟨c', hc', hr'⟩, hr'k⟩
      rcases mem_keys_processNameChunk hk with h | h
      · exact hfresh k h c' (List.mem_cons_of_mem _ hc') hmem
      · exact hdisj h.1 hflat
    rw [nameMapLoop, List.foldl_cons]
    by_cases hbreak : needed.length ≤ (processNameChunk needed m c).length
    · rw [if_pos hbreak]
      have hlenkeys : needed.length ≤ ((processNameChunk needed m c).map (·.1)).length := by
        simpa using hbreak
      have hcover := subset_of_nodup_length hnod' hn hsub' hlenkeys
      refine (foldl_processNameChunk_of_no_needed ?_).symm
      intro c' hc' r hr k hk hkneeded
      have hkidc : k ∈ c'.filterMap (fun r => r.nconst) :=
        List.mem_filterMap.mpr ⟨r, hr, hk⟩
      exact hfresh' k (hcover k hkneeded) c' hc' hkidc
    · rw [if_neg hbreak]
      exact ih _ hsub' hnod' hfresh' hids'

/-- C5 counterexample: when a needed id occurs twice in the people source in
different chunks with different names, the early-terminating scan keeps the
first name while the full scan keeps the last one. -/
theorem c5_counterexample :
    build_name_map ["p1"]
        [[{ nconst := some "p1", primaryName := some "A" }],
         [{ nconst := some "p1", primaryName := some "B" }]] ≠
      full_scan_name_map ["p1"]
        [[{ nconst := some "p1", primaryName := some "A" }],
         [{ nconst := some "p1", primaryName := some "B" }]] := by
  decide

/-- C5 (amended): provided the people source never repeats an id (ids are a
primary key of the source) and the needed-id set has no duplicates, the
early-terminating scan returns exactly the mapping of the full scan. -/
theorem c5_amended (needed : List String) (chunks : List (List NameRow))
    (hn : needed.Nodup)
    (hids : (chunks.flatten.filterMap (fun r => r.nconst)).Nodup) :
    build_name_map needed chunks = full_scan_name_map needed chunks :=
  nameMapLoop_eq_foldl hn chunks [] (by simp) (by simp) (by simp) hids

theorem c5_witness :
    build_name_map ["p1", "p2"] [[{ nconst := some "p1", primaryName := some "A" }]] =
      full_scan_name_map ["p1", "p2"] [[{ nconst := some "p1", primaryName := some "A" }]] :=
  c5_amended _ _ (by decide) (by decide)

/-! ### Merge membership lemmas (claims C1, C3, C10) -/

theorem mem_innerMerge {L : List α} {R : List β} {ka : α → String} {kb : β → String}
    {p : α × β} :
    p ∈ innerMerge L R ka kb ↔ p.1 ∈ L ∧ p.2 ∈ R ∧ kb p.2 = ka p.1 := by
  unfold innerMerge
  constructor
  · intro h
    rcases List.mem_flatMap.mp h with ⟨a, ha, hp⟩
    rcases List.mem_map.mp hp with ⟨b, hb, rfl⟩
    have hf := List.mem_filter.mp hb
    exact ⟨ha, hf.1, by simpa using hf.2⟩
  · rintro ⟨h1, h2, h3⟩
    rcases p with ⟨a, b⟩
    exact List.mem_flatMap.mpr
      ⟨a, h1, List.mem_map.mpr ⟨b, List.mem_filter.mpr ⟨h2, by simpa using h3⟩, rfl⟩⟩

theorem leftMerge_exists_key {L : List α} {R : List β} {ka : α → String}
    {kb : β → String} (a : α) (ha : a ∈ L) :
    ∃ ob, (a, ob) ∈ leftMerge L R ka kb := by
  unfold leftMerge
  rcases hf : R.filter (fun b => kb b == ka a) with _ | ⟨b, bs⟩
  · refine ⟨none, List.mem_flatMap.mpr ⟨a, ha, ?_⟩⟩
    simp [hf]
  · refine ⟨some b, List.mem_flatMap.mpr ⟨a, ha, ?_⟩⟩
    simp [hf]

theorem mem_leftMerge_fst {L : List α} {R : List β} {ka : α → String}
    {kb : β → String} {p : α × Option β} (hp : p ∈ leftMerge L R ka kb) :
    p.1 ∈ L := by
  unfold leftMerge at hp
  rcases List.mem_flatMap.mp hp with ⟨a, ha, hm⟩
  split at hm
  · rcases List.mem_singleton.mp hm with rfl
    exact ha
  · rcases List.mem_map.mp hm with ⟨b, _, rfl⟩
    exact ha

/-- C1: a key appears in the catalog output iff it has a title row passing
every title-filter condition and a ratings row with at least `MIN_VOTES`
votes; and the feature output has a key iff the catalog output does — so a
title whose only rating has 999 votes appears in neither output. -/
theorem c1_catalog_key_iff (I : Inputs) (k : String) :
    ((∃ e ∈ catalog I, e.tconst = k) ↔
      ((∃ b ∈ I.basics, b.tconst = k ∧ basicsPred b = true) ∧
       (∃ r ∈ I.ratings, r.tconst = k ∧ ∃ v, r.numVotes = some v ∧ MIN_VOTES ≤ v))) ∧
    ((∃ f ∈ features I, f.tconst = k) ↔ (∃ e ∈ catalog I, e.tconst = k)) := by
  have hvotes : ∀ r : RatingsRow, votesOk r = true ↔ ∃ v, r.numVotes = some v ∧ MIN_VOTES ≤ v := by
    intro r
    unfold votesOk
    rcases hnv : r.numVotes with _ | v
    · simp [hnv]
    · simp [hnv]
  have hmov : (∃ m ∈ movies1 I, m.1.tconst = k) ↔
      ((∃ b ∈ I.basics, b.tconst = k ∧ basicsPred b = true) ∧
       (∃ r ∈ I.ratings, r.tconst = k ∧ ∃ v, r.numVotes = some v ∧ MIN_VOTES ≤ v)) := by
    constructor
    · rintro ⟨m, hm, hk⟩
      have hm1 := List.mem_filter.mp hm
      have hmerge := mem_innerMerge.mp hm1.1
      have hb := List.mem_filter.mp (mem_of_mem_dedupByKey hmerge.1)
      have hrm := List.mem_filter.mp hmerge.2.1
      refine ⟨⟨m.1, hb.1, hk, hb.2⟩, ⟨m.2, hrm.1, hmerge.2.2.trans hk, ?_⟩⟩
      exact (hvotes m.2).mp hm1.2
    · rintro ⟨⟨b, hb, hbk, hbp⟩, ⟨r, hr, hrk, hv⟩⟩
      have hkmem : k ∈ (basicsKept I).map (·.tconst) := by
        apply key_mem_dedupByKey_iff.mpr
        exact List.mem_map.mpr ⟨b, List.mem_filter.mpr ⟨hb, hbp⟩, hbk⟩
      rcases List.mem_map.mp hkmem with ⟨b', hb', hb'k⟩
      have hrmatch : r ∈ ratingsMatched I := by
        apply List.mem_filter.mpr
        refine ⟨hr, ?_⟩
        apply List.contains_iff_exists_mem_beq.mpr
        exact ⟨k, hrk ▸ hkmem, by simp [hrk]⟩
      refine ⟨(b', r), List.mem_filter.mpr ⟨mem_innerMerge.mpr ⟨hb', hrmatch, ?_⟩, ?_⟩, hb'k⟩
      · exact hrk.trans hb'k.symm
      · exact (hvotes r).mpr hv
  have hcat : (∃ e ∈ catalog I, e.tconst = k) ↔ (∃ m ∈ movies1 I, m.1.tconst = k) := by
    constructor
    · rintro ⟨e, he, hk⟩
      rcases List.mem_map.mp he with ⟨q, hq, rfl⟩
      exact ⟨q.1.1, mem_leftMerge_fst (mem_leftMerge_fst hq), hk⟩
    · rintro ⟨m, hm, hk⟩
      rcases @leftMerge_exists_key _ _ (movies1 I) (crewNames I) (fun p => p.1.tconst)
        (fun c => c.1) m hm with ⟨ob, hob⟩
      rcases @leftMerge_exists_key _ _ (withCrew I) (cast_agg I) (fun p => p.1.1.tconst)
        (fun c => c.1) (m, ob) hob with ⟨oc, hoc⟩
      exact ⟨mkCatalogEntry ((m, ob), oc), List.mem_map.mpr ⟨((m, ob), oc), hoc, rfl⟩, hk⟩
  refine ⟨hcat.trans hmov, ?_⟩
  constructor
  · rintro ⟨f, hf, hk⟩
    rcases List.mem_map.mp hf with ⟨e, he, rfl⟩
    exact ⟨e, he, hk⟩
  · rintro ⟨e, he, hk⟩
    exact ⟨_, List.mem_map.mpr ⟨e, he, rfl⟩, hk⟩

theorem c1_witness :
    (∃ e ∈ catalog c2Inputs, e.tconst = "t1") ∧
    ¬(∃ e ∈ catalog { c2Inputs with
        ratings := [{ tconst := "t1", averageRating := some (Rat.mk' 15 2),
                      numVotes := some 999 }] }, e.tconst = "t1") := by
  constructor
  · exact (c1_catalog_key_iff c2Inputs "t1").1.mpr
      ⟨⟨c2Basics, by decide, rfl, by decide⟩,
       ⟨c2Ratings, by decide, rfl, 5000, rfl, by decide⟩⟩
  · intro h
    rcases ((c1_catalog_key_iff _ "t1").1.mp h).2 with ⟨r, hr, _, v, hv, hle⟩
    rcases List.mem_singleton.mp hr with rfl
    rcases Option.some.inj hv with rfl
    exact absurd hle (by decide)

/-! ### Uniqueness of keys through the joins (claims C3, C10) -/

theorem find?_eq_head?_filter (q : α → Bool) : ∀ (l : List α), l.find? q = (l.filter q).head? := by
  intro l
  induction l with
  | nil => rfl
  | cons a l ih =>
    rw [List.filter_cons]
    by_cases h : q a = true
    · rw [if_pos h, List.find?_cons_of_pos _ h, List.head?_cons]
    · rw [if_neg h, List.find?_cons_of_neg _ (by simpa using h), ih]

theorem filter_beq_length_le_one {R : List β} {kb : β → String}
    (h : (R.map kb).Nodup) (x : String) :
    (R.filter fun b => kb b == x).length ≤ 1 := by
  induction R with
  | nil => simp
  | cons b bs ih =>
    simp only [List.map_cons, List.nodup_cons] at h
    rw [List.filter_cons]
    by_cases hb : (kb b == x) = true
    · rw [if_pos hb]
      have hnil : (bs.filter fun b' => kb b' == x) = [] := by
        rw [List.filter_eq_nil_iff]
        intro b' hb' hbx
        exact h.1 (List.mem_map.mpr ⟨b', hb', (eq_of_beq hbx).trans (eq_of_beq hb).symm⟩)
      simp [hnil]
    · rw [if_neg hb]
      exact ih h.2

theorem innerMerge_keys_sublist {L : List α} {R : List β} {ka : α → String}
    {kb : β → String} (h : (R.map kb).Nodup) :
    List.Sublist ((innerMerge L R ka kb).map fun p => ka p.1) (L.map ka) := by
  induction L with
  | nil => simp [innerMerge]
  | cons a L ih =>
    unfold innerMerge at ih ⊢
    rw [List.flatMap_cons, List.map_append, List.map_cons]
    have hlen := filter_beq_length_le_one h (ka a)
    rcases hfil : R.filter (fun b => kb b == ka a) with _ | ⟨b, bs⟩
    · simp only [List.map_nil, List.nil_append]
      exact ih.cons _
    · have hbs : bs = [] := by
        have := hfil ▸ hlen
        simpa using this
      subst hbs
      simp only [List.map_cons, List.map_nil, List.cons_append, List.nil_append]
      exact ih.cons₂ _

theorem leftMerge_eq_map_of_nodup {L : List α} {R : List β} {ka : α → String}
    {kb : β → String} (h : (R.map kb).Nodup) :
    leftMerge L R ka kb = L.map fun a => (a, R.find? fun b => kb b == ka a) := by
  unfold leftMerge
  induction L with
  | nil => rfl
  | cons a L ih =>
    rw [List.flatMap_cons, ih, List.map_cons]
    rw [find?_eq_head?_filter]
    rcases hfil : R.filter (fun b => kb b == ka a) with _ | ⟨b, bs⟩
    · simp
    · have hbs : bs = [] := by
        have := hfil ▸ filter_beq_length_le_one h (ka a)
        simpa using this
      subst hbs
      simp

theorem mem_dedupById_iff {l : List String} {t : String} :
    t ∈ dedupByKey id l ↔ t ∈ l := by
  have h := @key_mem_dedupByKey_iff String (id : String → String) l t
  simpa using h

theorem cast_agg_keys_nodup (I : Inputs) : ((cast_agg I).map (·.1)).Nodup := by
  have h1 : (castKeys I).Nodup := by
    have h2 := @keys_nodup_dedupByKey String (id : String → String)
      ((principalsSorted2 I).map (·.1.tconst))
    simpa [castKeys] using h2
  unfold cast_agg
  rw [List.map_map]
  have hco : ((fun x : String × String => x.1) ∘
      fun t => (t, joinBar ((castGroup I t).take CAST_TOP_N))) = fun t : String => t := rfl
  rw [hco]
  simpa using h1

/-- C10: if the ratings source and the crew source each hold at most one row
per key, then every key appears at most once in the catalog output and at
most once in the feature output, even if the title source repeats keys. -/
theorem c10_keys_unique (I : Inputs)
    (hr : (I.ratings.map (·.tconst)).Nodup)
    (hc : (I.crew.map (·.tconst)).Nodup) :
    ((catalog I).map (·.tconst)).Nodup ∧ ((features I).map (·.tconst)).Nodup := by
  have hrm : ((ratingsMatched I).map (·.tconst)).Nodup :=
    ((List.filter_sublist _).map _).nodup hr
  have hmov : ((movies1 I).map fun p => p.1.tconst).Nodup := by
    have hkeys : ((moviesJoined I).map fun p => p.1.tconst).Nodup :=
      (innerMerge_keys_sublist hrm).nodup keys_nodup_dedupByKey
    exact ((List.filter_sublist _).map _).nodup hkeys
  have hcrewnames : ((crewNames I).map (·.1)).Nodup := by
    unfold crewNames
    rw [List.map_map]
    exact ((List.filter_sublist _).map _).nodup hc
  have hagg : ((cast_agg I).map (·.1)).Nodup := cast_agg_keys_nodup I
  have hwcrew : ((withCrew I).map fun p => p.1.1.tconst).Nodup := by
    unfold withCrew
    rw [leftMerge_eq_map_of_nodup hcrewnames, List.map_map]
    exact hmov
  have hwcast : ((withCast I).map fun p => p.1.1.1.tconst).Nodup := by
    unfold withCast
    rw [leftMerge_eq_map_of_nodup hagg, List.map_map]
    exact hwcrew
  have hcat : ((catalog I).map (·.tconst)).Nodup := by
    unfold catalog
    rw [List.map_map]
    exact hwcast
  refine ⟨hcat, ?_⟩
  unfold features
  rw [List.map_map]
  exact hcat

theorem c10_witness :
    ((catalog c2Inputs).map (·.tconst)).Nodup ∧
    ((features c2Inputs).map (·.tconst)).Nodup :=
  c10_keys_unique c2Inputs (by decide) (by decide)

/-! ### Character-level lemmas for the soup normalization (claim C4) -/

theorem toNat_ofNat_of_lt {n : Nat} (h : n < 55296) : (Char.ofNat n).toNat = n := by
  have hv : n.isValidChar := Or.inl h
  rw [Char.ofNat, dif_pos hv]
  simp [Char.ofNatAux, Char.toNat, UInt32.toNat]

theorem toLower_eq_self_of_not_upper {c : Char}
    (h : ¬(c.toNat ≥ 65 ∧ c.toNat ≤ 90)) : Char.toLower c = c := by
  unfold Char.toLower
  exact if_neg h

theorem toLower_eq_or (c : Char) :
    Char.toLower c = c ∨
    (65 ≤ c.toNat ∧ c.toNat ≤ 90 ∧ (Char.toLower c).toNat = c.toNat + 32) := by
  by_cases h : c.toNat ≥ 65 ∧ c.toNat ≤ 90
  · right
    refine ⟨h.1, h.2, ?_⟩
    have hlow : Char.toLower c = Char.ofNat (c.toNat + 32) := by
      unfold Char.toLower
      exact if_pos h
    rw [hlow]
    exact toNat_ofNat_of_lt (by omega)
  · exact Or.inl (toLower_eq_self_of_not_upper h)

theorem toLower_toLower (c : Char) :
    Char.toLower (Char.toLower c) = Char.toLower c := by
  rcases toLower_eq_or c with h | ⟨h1, h2, h3⟩
  · rw [h, h]
  · apply toLower_eq_self_of_not_upper
    omega

theorem toLower_ne_sep {c : Char} (h1 : c ≠ ',') (h2 : c ≠ '|') :
    Char.toLower c ≠ ',' ∧ Char.toLower c ≠ '|' := by
  rcases toLower_eq_or c with h | ⟨ha, hb, hc⟩
  · rw [h]
    exact ⟨h1, h2⟩
  · constructor
    · intro he
      have h44 : (Char.toLower c).toNat = 44 := by rw [he]; rfl
      omega
    · intro he
      have h124 : (Char.toLower c).toNat = 124 := by rw [he]; rfl
      omega

/-! ### List-level lemmas for the soup normalization (claim C4) -/

theorem mem_replChar {sep : Char} {l : List Char} {c : Char} (h : c ∈ replChar sep l) :
    c = ' ' ∨ (c ∈ l ∧ c ≠ sep) := by
  rcases List.mem_map.mp h with ⟨a, ha, rfl⟩
  by_cases ha' : a = sep
  · simp [ha']
  · rw [if_neg ha']
    exact Or.inr ⟨ha, ha'⟩

theorem mem_replBoth {l : List Char} {c : Char}
    (h : c ∈ replChar '|' (replChar ',' l)) : c ≠ ',' ∧ c ≠ '|' := by
  rcases mem_replChar h with rfl | ⟨h1, h2⟩
  · exact ⟨by decide, by decide⟩
  · rcases mem_replChar h1 with rfl | ⟨_, h3⟩
    · exact ⟨by decide, h2⟩
    · exact ⟨h3, h2⟩

theorem mem_trimCh {l : List Char} {c : Char} (h : c ∈ trimCh l) : c ∈ l := by
  unfold trimCh at h
  rw [List.mem_reverse] at h
  have h1 := (List.dropWhile_sublist _).subset h
  rw [List.mem_reverse] at h1
  exact (List.dropWhile_sublist _).subset h1

theorem trimCh_eq_self {l : List Char}
    (h1 : ∀ c, l.head? = some c → Char.isWhitespace c = false)
    (h2 : ∀ c, l.getLast? = some c → Char.isWhitespace c = false) :
    trimCh l = l := by
  unfold trimCh
  have hd : l.dropWhile Char.isWhitespace = l := by
    cases l with
    | nil => rfl
    | cons a t =>
      rw [List.dropWhile_cons_of_neg]
      simp [h1 a rfl]
  rw [hd]
  have hr : l.reverse.dropWhile Char.isWhitespace = l.reverse := by
    cases hrev : l.reverse with
    | nil => rfl
    | cons a t =>
      rw [List.dropWhile_cons_of_neg]
      have hl : l.getLast? = some a := by
        rw [List.getLast?_eq_head?_reverse, hrev]
        rfl
      simp [h2 a hl]
  rw [hr, List.reverse_reverse]

theorem splitOnP_forall_mem {p : α → Bool} :
    ∀ {l w : List α} {c : α}, w ∈ l.splitOnP p → c ∈ w → c ∈ l ∧ p c = false := by
  intro l
  induction l with
  | nil =>
    intro w c hw hc
    rw [List.splitOnP_nil] at hw
    rcases List.mem_singleton.mp hw with rfl
    simp at hc
  | cons x xs ih =>
    intro w c hw hc
    rw [List.splitOnP_cons] at hw
    by_cases hp : p x = true
    · rw [if_pos hp] at hw
      rcases List.mem_cons.mp hw with rfl | hw
      · simp at hc
      · have hin := ih hw hc
        exact ⟨List.mem_cons_of_mem _ hin.1, hin.2⟩
    · rw [if_neg hp] at hw
      rcases hsp : xs.splitOnP p with _ | ⟨h0, t⟩
      · exact absurd hsp (List.splitOnP_ne_nil _ _)
      · rw [hsp] at hw
        simp only [List.modifyHead] at hw
        rcases List.mem_cons.mp hw with rfl | hw
        · rcases List.mem_cons.mp hc with rfl | hc
          · exact ⟨List.mem_cons_self _ _, by simpa using hp⟩
          · have hh0 : h0 ∈ xs.splitOnP p := by
              rw [hsp]
              exact List.mem_cons_self _ _
            have hin := ih hh0 hc
            exact ⟨List.mem_cons_of_mem _ hin.1, hin.2⟩
        · have hwmem : w ∈ xs.splitOnP p := by
            rw [hsp]
            exact List.mem_cons_of_mem _ hw
          have hin := ih hwmem hc
          exact ⟨List.mem_cons_of_mem _ hin.1, hin.2⟩

theorem splitOnP_congr {p q : α → Bool} :
    ∀ {l : List α}, (∀ c ∈ l, p c = q c) → l.splitOnP p = l.splitOnP q := by
  intro l
  induction l with
  | nil => intro; rfl
  | cons x xs ih =>
    intro h
    rw [List.splitOnP_cons, List.splitOnP_cons, h x (List.mem_cons_self _ _),
      ih fun c hc => h c (List.mem_cons_of_mem _ hc)]

theorem wordsCh_props {l w : List Char} (hw : w ∈ wordsCh l) :
    w ≠ [] ∧ ∀ c ∈ w, c ∈ l ∧ Char.isWhitespace c = false := by
  unfold wordsCh at hw
  have hf := List.mem_filter.mp hw
  exact ⟨by simpa using hf.2, fun c hc => splitOnP_forall_mem hf.1 hc⟩

theorem intercalate_cons₂ (x : α) (w w2 : List α) (t : List (List α)) :
    List.intercalate [x] (w :: w2 :: t) = w ++ x :: List.intercalate [x] (w2 :: t) := by
  simp [List.intercalate]

theorem intercalate_single (x : α) (w : List α) : List.intercalate [x] [w] = w := by
  simp [List.intercalate]

theorem mem_intercalate_singleton {x : α} :
    ∀ {ws : List (List α)} {c : α},
      c ∈ List.intercalate [x] ws → c = x ∨ ∃ w ∈ ws, c ∈ w := by
  intro ws
  induction ws with
  | nil =>
    intro c hc
    simp [List.intercalate] at hc
  | cons w t ih =>
    intro c hc
    cases t with
    | nil =>
      rw [intercalate_single] at hc
      exact Or.inr ⟨w, List.mem_cons_self _ _, hc⟩
    | cons w2 t2 =>
      rw [intercalate_cons₂] at hc
      rcases List.mem_append.mp hc with hc | hc
      · exact Or.inr ⟨w, List.mem_cons_self _ _, hc⟩
      · rcases List.mem_cons.mp hc with rfl | hc
        · exact Or.inl rfl
        · rcases ih hc with h | ⟨w', hw', hcw'⟩
          · exact Or.inl h
          · exact Or.inr ⟨w', List.mem_cons_of_mem _ hw', hcw'⟩

theorem head?_intercalate_cons (x : α) (w : List α) (t : List (List α)) (hw : w ≠ []) :
    (List.intercalate [x] (w :: t)).head? = w.head? := by
  cases t with
  | nil => rw [intercalate_single]
  | cons w2 t2 =>
    rw [intercalate_cons₂, List.head?_append]
    cases w with
    | nil => exact absurd rfl hw
    | cons a t3 => simp

theorem intercalate_ne_nil_of_ne (x : α) (w : List α) (t : List (List α)) (hw : w ≠ []) :
    List.intercalate [x] (w :: t) ≠ [] := by
  intro hnil
  have := head?_intercalate_cons x w t hw
  rw [hnil] at this
  cases w with
  | nil => exact hw rfl
  | cons a t3 => simp at this

theorem getLast?_intercalate (x : α) :
    ∀ (t : List (List α)) (w : List α), (∀ w' ∈ w :: t, w' ≠ []) →
      ∃ w' ∈ w :: t, (List.intercalate [x] (w :: t)).getLast? = w'.getLast? := by
  intro t
  induction t with
  | nil =>
    intro w _
    exact ⟨w, List.mem_cons_self _ _, by rw [intercalate_single]⟩
  | cons w2 t2 ih =>
    intro w h
    rcases ih w2 (fun w' hw' => h w' (List.mem_cons_of_mem _ hw')) with ⟨w', hw', heq⟩
    refine ⟨w', List.mem_cons_of_mem _ hw', ?_⟩
    rw [intercalate_cons₂, List.getLast?_append]
    have hne : List.intercalate [x] (w2 :: t2) ≠ [] :=
      intercalate_ne_nil_of_ne x w2 t2 (h w2 (List.mem_cons_of_mem _ (List.mem_cons_self _ _)))
    have hcons : (x :: List.intercalate [x] (w2 :: t2)).getLast? =
        (List.intercalate [x] (w2 :: t2)).getLast? := by
      rcases hI : List.intercalate [x] (w2 :: t2) with _ | ⟨b, l⟩
      · exact absurd hI hne
      · simp
    rw [hcons, heq]
    have hw'ne : w' ≠ [] := h w' (List.mem_cons_of_mem _ hw')
    have hsome : ∃ a, w'.getLast? = some a := by
      rcases hw'' : w' with _ | ⟨b, l⟩
      · exact absurd hw'' hw'ne
      · exact ⟨(b :: l).getLast (by simp), List.getLast?_eq_getLast _ _⟩
    rcases hsome with ⟨a, ha⟩
    rw [ha, Option.or_some]

theorem wordsCh_intercalate {ws : List (List Char)}
    (h : ∀ w ∈ ws, w ≠ [] ∧ ∀ c ∈ w, Char.isWhitespace c = false) :
    wordsCh (List.intercalate [' '] ws) = ws := by
  cases ws with
  | nil => rfl
  | cons w0 t0 =>
    unfold wordsCh
    have hcongr : (List.intercalate [' '] (w0 :: t0)).splitOnP Char.isWhitespace =
        (List.intercalate [' '] (w0 :: t0)).splitOnP (· == ' ') := by
      apply splitOnP_congr
      intro c hc
      rcases mem_intercalate_singleton hc with rfl | ⟨w, hw, hcw⟩
      · decide
      · have hws := (h w hw).2 c hcw
        have hne : (c == ' ') = false := by
          rw [beq_eq_false_iff_ne]
          intro hcsp
          rw [hcsp] at hws
          simp [Char.isWhitespace] at hws
        rw [hws, hne]
    rw [hcongr]
    rw [show (List.intercalate [' '] (w0 :: t0)).splitOnP (· == ' ') =
      (List.intercalate [' '] (w0 :: t0)).splitOn ' ' from rfl]
    rw [show List.intercalate [' '] (w0 :: t0) = [' '].intercalate (w0 :: t0) from rfl]
    have hx : ∀ w ∈ (w0 :: t0), ' ' ∉ w := by
      intro w hw hsp
      have := (h w hw).2 ' ' hsp
      simp [Char.isWhitespace] at this
    rw [List.splitOn_intercalate (w0 :: t0) ' ' hx (by simp)]
    rw [List.filter_eq_self.mpr]
    intro w hw
    simpa using (h w hw).1

theorem replChar_eq_self {sep : Char} {l : List Char} (h : ∀ c ∈ l, c ≠ sep) :
    replChar sep l = l :=
  calc l.map (fun c => if c = sep then ' ' else c) = l.map id :=
        List.map_congr_left fun c hc => if_neg (h c hc)
    _ = l := List.map_id l

theorem map_toLower_eq_self {l : List Char} (h : ∀ c ∈ l, Char.toLower c = c) :
    l.map Char.toLower = l :=
  calc l.map Char.toLower = l.map id := List.map_congr_left h
    _ = l := List.map_id l

theorem normalizeCh_fixes_words (inner : List Char)
    (hfix : ∀ c ∈ inner, c ≠ ',' ∧ c ≠ '|' ∧ Char.toLower c = c) :
    normalizeCh (List.intercalate [' '] (wordsCh inner)) =
      List.intercalate [' '] (wordsCh inner) := by
  have hwsp : ∀ w ∈ wordsCh inner, w ≠ [] ∧ ∀ c ∈ w, Char.isWhitespace c = false :=
    fun w hw => ⟨(wordsCh_props hw).1, fun c hc => ((wordsCh_props hw).2 c hc).2⟩
  have hXmem : ∀ c ∈ List.intercalate [' '] (wordsCh inner),
      c = ' ' ∨ (c ∈ inner ∧ Char.isWhitespace c = false) := by
    intro c hc
    rcases mem_intercalate_singleton hc with rfl | ⟨w, hw, hcw⟩
    · exact Or.inl rfl
    · exact Or.inr ((wordsCh_props hw).2 c hcw)
  have h1 : replChar ','
      (List.intercalate [' '] (wordsCh inner)) = List.intercalate [' '] (wordsCh inner) := by
    apply replChar_eq_self
    intro c hc
    rcases hXmem c hc with rfl | ⟨hin, _⟩
    · decide
    · exact (hfix c hin).1
  have h2 : replChar '|'
      (List.intercalate [' '] (wordsCh inner)) = List.intercalate [' '] (wordsCh inner) := by
    apply replChar_eq_self
    intro c hc
    rcases hXmem c hc with rfl | ⟨hin, _⟩
    · decide
    · exact (hfix c hin).2.1
  have h3 : trimCh
      (List.intercalate [' '] (wordsCh inner)) = List.intercalate [' '] (wordsCh inner) := by
    apply trimCh_eq_self
    · intro c hc
      rcases hws : wordsCh inner with _ | ⟨w0, t0⟩
      · rw [hws] at hc
        simp [List.intercalate] at hc
      · rw [hws] at hc
        have hw0 := hwsp w0 (by rw [hws]; exact List.mem_cons_self _ _)
        rw [head?_intercalate_cons ' ' w0 t0 hw0.1] at hc
        rcases hw0' : w0 with _ | ⟨b, l⟩
        · exact absurd hw0' hw0.1
        · rw [hw0'] at hc
          rcases Option.some.inj hc.symm     with hcb
          exact hcb ▸ hw0.2 b (hw0' ▸ List.mem_cons_self _ _)
    · intro c hc
      rcases hws : wordsCh inner with _ | ⟨w0, t0⟩
      · rw [hws] at hc
        simp [List.intercalate] at hc
      · rw [hws] at hc
        have hall : ∀ w' ∈ w0 :: t0, w' ≠ [] := by
          intro w' hw'
          exact (hwsp w' (by rw [hws]; exact hw')).1
        rcases getLast?_intercalate ' ' t0 w0 hall with ⟨w', hw', heq⟩
        rw [heq] at hc
        have hcw' : c ∈ w' := List.mem_of_getLast?_eq_some hc
        exact (hwsp w' (by rw [hws]; exact hw')).2 c hcw'
  have h4 : (List.intercalate [' '] (wordsCh inner)).map Char.toLower =
      List.intercalate [' '] (wordsCh inner) := by
    apply map_toLower_eq_self
    intro c hc
    rcases hXmem c hc with rfl | ⟨hin, _⟩
    · decide
    · exact (hfix c hin).2.2
  unfold normalizeCh
  rw [h1, h2, h3, h4, wordsCh_intercalate hwsp]

theorem normalizeCh_idem (l : List Char) :
    normalizeCh (normalizeCh l) = normalizeCh l := by
  have hfix : ∀ c ∈ (trimCh (replChar '|' (replChar ',' l))).map Char.toLower,
      c ≠ ',' ∧ c ≠ '|' ∧ Char.toLower c = c := by
    intro c hc
    rcases List.mem_map.mp hc with ⟨c', hc', rfl⟩
    have hc'' : c' ∈ replChar '|' (replChar ',' l) := mem_trimCh hc'
    have hsep := mem_replBoth hc''
    exact ⟨(toLower_ne_sep hsep.1 hsep.2).1, (toLower_ne_sep hsep.1 hsep.2).2,
      toLower_toLower c'⟩
  exact normalizeCh_fixes_words _ hfix

/-- C4: the Assembly stage's soup normalization — replace the list separators
by single spaces, strip, lowercase, collapse whitespace runs to single
spaces — is idempotent: applying it twice to any string gives the same
result as applying it once. -/
theorem c4_soup_normalize_idem (s : String) :
    soup_normalize (soup_normalize s) = soup_normalize s := by
  show (⟨normalizeCh (normalizeCh s.data)⟩ : String) = ⟨normalizeCh s.data⟩
  rw [normalizeCh_idem]

/-! ### Stable-sort and comparator lemmas (claim C3) -/

theorem mem_oInsert {le : α → α → Bool} {x y : α} :
    ∀ {l : List α}, y ∈ oInsert le x l ↔ y = x ∨ y ∈ l := by
  intro l
  induction l with
  | nil => simp [oInsert]
  | cons z zs ih =>
    unfold oInsert
    by_cases h : le x z = true
    · rw [if_pos h]
      simp
    · rw [if_neg h]
      simp only [List.mem_cons, ih]
      tauto

theorem oInsert_pairwise {le : α → α → Bool}
    (htrans : ∀ a b c, le a b = true → le b c = true → le a c = true)
    (htot : ∀ a b, le a b = true ∨ le b a = true) (x : α) :
    ∀ {l : List α}, l.Pairwise (fun a b => le a b = true) →
      (oInsert le x l).Pairwise (fun a b => le a b = true) := by
  intro l
  induction l with
  | nil =>
    intro
    simp [oInsert]
  | cons y ys ih =>
    intro h
    rcases List.pairwise_cons.mp h with ⟨hy, hys⟩
    unfold oInsert
    by_cases hxy : le x y = true
    · rw [if_pos hxy]
      refine List.pairwise_cons.mpr ⟨?_, h⟩
      intro z hz
      rcases List.mem_cons.mp hz with rfl | hz
      · exact hxy
      · exact htrans x y z hxy (hy z hz)
    · rw [if_neg hxy]
      refine List.pairwise_cons.mpr ⟨?_, ih hys⟩
      intro z hz
      rcases mem_oInsert.mp hz with rfl | hz
      · rcases htot z y with h' | h'
        · exact absurd h' hxy
        · exact h'
      · exact hy z hz

theorem mem_stableSort {le : α → α → Bool} {y : α} :
    ∀ {l : List α}, y ∈ stableSort le l ↔ y ∈ l := by
  intro l
  induction l with
  | nil => simp [stableSort]
  | cons x xs ih =>
    unfold stableSort
    rw [mem_oInsert, ih]
    simp

theorem stableSort_pairwise {le : α → α → Bool}
    (htrans : ∀ a b c, le a b = true → le b c = true → le a c = true)
    (htot : ∀ a b, le a b = true ∨ le b a = true) :
    ∀ (l : List α), (stableSort le l).Pairwise (fun a b => le a b = true) := by
  intro l
  induction l with
  | nil => simp [stableSort]
  | cons x xs ih => exact oInsert_pairwise htrans htot x ih

theorem oLe_trans {x y z : Option Int} (h1 : oLe x y = true) (h2 : oLe y z = true) :
    oLe x z = true := by
  rcases x with _ | a <;> rcases y with _ | b <;> rcases z with _ | c <;>
    simp_all [oLe] <;> omega

theorem oLe_total (x y : Option Int) : oLe x y = true ∨ oLe y x = true := by
  rcases x with _ | a <;> rcases y with _ | b <;> simp_all [oLe] <;> omega

theorem pLe_trans (a b c : PrincipalsRow) (h1 : pLe a b = true) (h2 : pLe b c = true) :
    pLe a c = true := by
  simp only [pLe, Bool.or_eq_true, Bool.and_eq_true, decide_eq_true_eq, beq_iff_eq] at h1 h2 ⊢
  rcases h1 with h1 | ⟨h1e, h1o⟩ <;> rcases h2 with h2 | ⟨h2e, h2o⟩
  · exact Or.inl (lt_trans h1 h2)
  · exact Or.inl (h2e ▸ h1)
  · exact Or.inl (h1e ▸ h2)
  · exact Or.inr ⟨h1e.trans h2e, oLe_trans h1o h2o⟩

theorem pLe_total (a b : PrincipalsRow) : pLe a b = true ∨ pLe b a = true := by
  simp only [pLe, Bool.or_eq_true, Bool.and_eq_true, decide_eq_true_eq, beq_iff_eq]
  rcases lt_trichotomy a.tconst b.tconst with h | h | h
  · exact Or.inl (Or.inl h)
  · rcases oLe_total a.ordering b.ordering with h' | h'
    · exact Or.inl (Or.inr ⟨h, h'⟩)
    · exact Or.inr (Or.inr ⟨h.symm, h'⟩)
  · exact Or.inr (Or.inl h)

theorem pLe2_trans (a b c : PrincipalsRow × String) (h1 : pLe2 a b = true)
    (h2 : pLe2 b c = true) : pLe2 a c = true :=
  pLe_trans a.1 b.1 c.1 h1 h2

theorem pLe2_total (a b : PrincipalsRow × String) : pLe2 a b = true ∨ pLe2 b a = true :=
  pLe_total a.1 b.1

theorem pLe_same_key_oLe {a b : PrincipalsRow} {t : String} (ha : a.tconst = t)
    (hb : b.tconst = t) (h : pLe a b = true) : oLe a.ordering b.ordering = true := by
  simp only [pLe, Bool.or_eq_true, Bool.and_eq_true, decide_eq_true_eq, beq_iff_eq] at h
  rcases h with h | ⟨_, h⟩
  · rw [ha, hb] at h
    exact absurd h (lt_irrefl t)
  · exact h

/-! ### Cast aggregation lemmas (claim C3) -/

theorem find?_beq_self {ks : List String} {t : String} (ht : t ∈ ks) :
    ks.find? (· == t) = some t := by
  induction ks with
  | nil => simp at ht
  | cons a ks ih =>
    by_cases h : (a == t) = true
    · simp only [List.find?, h]
      exact congrArg some (eq_of_beq h)
    · simp only [List.find?, h]
      rcases List.mem_cons.mp ht with rfl | ht2
      · simp at h
      · exact ih ht2

theorem find?_cast_agg (I : Inputs) (t : String) :
    (cast_agg I).find? (fun c => c.1 == t) =
      if t ∈ castKeys I then some (t, joinBar ((castGroup I t).take CAST_TOP_N))
      else none := by
  unfold cast_agg
  rw [List.find?_map]
  have hco : ((fun c : String × String => c.1 == t) ∘
      fun t' => (t', joinBar ((castGroup I t').take CAST_TOP_N))) = fun t' => t' == t := rfl
  rw [hco]
  by_cases ht : t ∈ castKeys I
  · rw [if_pos ht, find?_beq_self ht]
    rfl
  · rw [if_neg ht, List.find?_eq_none.mpr, Option.map_none']
    intro x hx hbeq
    exact ht ((eq_of_beq hbeq) ▸ hx)

theorem castGroup_ne_nil_iff {I : Inputs} {t : String} :
    t ∈ castKeys I ↔ castGroup I t ≠ [] := by
  unfold castKeys castGroup
  rw [mem_dedupById_iff]
  constructor
  · intro ht hnil
    rcases List.mem_map.mp ht with ⟨p, hp, hpt⟩
    rw [List.map_eq_nil_iff, List.filter_eq_nil_iff] at hnil
    exact hnil p hp (by simp [hpt])
  · intro hne
    rcases hfil : (principalsSorted2 I).filter (fun p => p.1.tconst == t) with _ | ⟨p, ps⟩
    · rw [hfil] at hne
      simp at hne
    · have hp : p ∈ (principalsSorted2 I).filter (fun p => p.1.tconst == t) := by
        rw [hfil]
        exact List.mem_cons_self _ _
      have hf := List.mem_filter.mp hp
      exact List.mem_map.mpr ⟨p, hf.1, eq_of_beq hf.2⟩

theorem mem_processNameChunk_values {needed : List String} :
    ∀ {c : List NameRow} {m : List (String × String)} {q : String × String},
      q ∈ processNameChunk needed m c →
      q ∈ m ∨ ∃ r ∈ c, r.nconst = some q.1 ∧ r.primaryName = some q.2 := by
  intro c
  induction c with
  | nil => exact fun h => Or.inl h
  | cons r c ih =>
    intro m q h
    rw [processNameChunk_cons] at h
    rcases ih h with h2 | ⟨r', hr', hr'q⟩
    · rcases stepName_cases needed m r with hs | ⟨k, v, hk, hv, _, hs⟩
      · exact Or.inl (hs ▸ h2)
      · rw [hs] at h2
        rcases mem_insertName h2 with h3 | rfl
        · exact Or.inl h3
        · exact Or.inr ⟨r, List.mem_cons_self _ _, hk, hv⟩
    · exact Or.inr ⟨r', List.mem_cons_of_mem _ hr', hr'q⟩

theorem mem_nameMapLoop_values {needed : List String} :
    ∀ {chunks : List (List NameRow)} {m : List (String × String)} {q : String × String},
      q ∈ nameMapLoop needed m chunks →
      q ∈ m ∨ ∃ c ∈ chunks, ∃ r ∈ c, r.nconst = some q.1 ∧ r.primaryName = some q.2 := by
  intro chunks
  induction chunks with
  | nil => exact fun h => Or.inl h
  | cons c cs ih =>
    intro m q h
    rw [nameMapLoop] at h
    by_cases hbreak : needed.length ≤ (processNameChunk needed m c).length
    · rw [if_pos hbreak] at h
      rcases mem_processNameChunk_values h with h2 | ⟨r, hr, hrq⟩
      · exact Or.inl h2
      · exact Or.inr ⟨c, List.mem_cons_self _ _, r, hr, hrq⟩
    · rw [if_neg hbreak] at h
      rcases ih h with h2 | ⟨c', hc', r, hr, hrq⟩
      · rcases mem_processNameChunk_values h2 with h3 | ⟨r, hr, hrq⟩
        · exact Or.inl h3
        · exact Or.inr ⟨c, List.mem_cons_self _ _, r, hr, hrq⟩
      · exact Or.inr ⟨c', List.mem_cons_of_mem _ hc', r, hr, hrq⟩

theorem name_map_values_from_source {I : Inputs} {q : String × String}
    (hq : q ∈ name_map I) :
    ∃ c ∈ I.names, ∃ r ∈ c, r.primaryName = some q.2 := by
  rcases mem_nameMapLoop_values hq with h | ⟨c, hc, r, hr, _, hrv⟩
  · simp at h
  · exact ⟨c, hc, r, hr, hrv⟩

theorem castGroup_mem_names {I : Inputs} {t v : String} (hv : v ∈ castGroup I t) :
    v ≠ "" ∧ ∃ q ∈ name_map I, q.2 = v := by
  unfold castGroup at hv
  rcases List.mem_map.mp hv with ⟨p, hp, rfl⟩
  have hps := (List.mem_filter.mp hp).1
  have hnb : p ∈ principalsNonblank I := mem_stableSort.mp hps
  have hfb := List.mem_filter.mp hnb
  have htrim : trimS p.2 ≠ "" := by simpa using hfb.2
  rcases List.mem_map.mp hfb.1 with ⟨r, _, rfl⟩
  constructor
  · intro hempty
    rw [hempty] at htrim
    exact htrim rfl
  · rcases hlk : lookupName (name_map I) r.nconst with _ | w
    · rw [hlk] at htrim
      exact absurd rfl htrim
    · rcases lookupName_mem hlk with ⟨q, hq, hqv⟩
      refine ⟨q, hq, ?_⟩
      simpa using hqv

theorem splitBarS_joinBar {ns : List String} (hne : ns ≠ [])
    (hsep : ∀ n ∈ ns, '|' ∉ n.data) :
    splitBarS (joinBar ns) = ns := by
  unfold splitBarS joinBar
  rw [show (⟨List.intercalate ['|'] (ns.map String.data)⟩ : String).data =
    List.intercalate ['|'] (ns.map String.data) from rfl]
  rw [show List.intercalate ['|'] (ns.map String.data) =
    ['|'].intercalate (ns.map String.data) from rfl]
  have hx : ∀ l ∈ ns.map String.data, '|' ∉ l := by
    intro l hl
    rcases List.mem_map.mp hl with ⟨n, hn, rfl⟩
    exact hsep n hn
  rw [List.splitOn_intercalate (ns.map String.data) '|' hx (by simpa using hne)]
  rw [List.map_map]
  have hco : (String.mk ∘ String.data) = id := by
    funext s
    rfl
  rw [hco, List.map_id]

/-- C3 counterexample: a surviving title with no principal rows at all still
gets a catalog entry, with an empty `cast_names_top5`; splitting that empty
field yields `[""]`, which is not the (empty) list of resolved acting-role
names, so the claim's per-entry description fails on this entry. -/
theorem c3_counterexample :
    (catalog c3CexInputs).map (·.tconst) = ["t1"] ∧
    (catalog c3CexInputs).map (·.cast_names_top5) = [""] ∧
    castNamesSpecList c3CexInputs "t1" = [] ∧
    splitBarS "" = [""] ∧
    ([""] : List String) ≠ [] := by
  decide

/-- C3 (amended): for every catalog entry whose `cast_names_top5` is
non-empty (an entry may have an empty cast field when the title has no
resolvable acting credits), splitting the field on `"|"` yields exactly the
first `CAST_TOP_N` resolved, blank-skipped acting-role names of the key —
a list of between 1 and `CAST_TOP_N` entries — and the underlying rows are
in ascending `ordering` position; resolved names are assumed free of the
`"|"` separator, which the join would otherwise not preserve. -/
theorem c3_amended (I : Inputs)
    (hsep : ∀ c ∈ I.names, ∀ r ∈ c, ∀ s, r.primaryName = some s → '|' ∉ s.data) :
    ∀ e ∈ catalog I, e.cast_names_top5 ≠ "" →
      splitBarS e.cast_names_top5 = castNamesSpecList I e.tconst ∧
      0 < (castNamesSpecList I e.tconst).length ∧
      (castNamesSpecList I e.tconst).length ≤ CAST_TOP_N ∧
      ((principalsSorted2 I).filter fun p => p.1.tconst == e.tconst).Pairwise
        (fun a b => oLe a.1.ordering b.1.ordering = true) := by
  intro e he hne
  have hpair : ∀ t : String,
      ((principalsSorted2 I).filter fun p => p.1.tconst == t).Pairwise
        (fun a b => oLe a.1.ordering b.1.ordering = true) := by
    intro t
    have hsorted : (principalsSorted2 I).Pairwise (fun a b => pLe2 a b = true) :=
      stableSort_pairwise pLe2_trans pLe2_total _
    have hfil : ((principalsSorted2 I).filter fun p => p.1.tconst == t).Pairwise
        (fun a b => pLe2 a b = true) :=
      List.Pairwise.sublist (List.filter_sublist _) hsorted
    apply List.Pairwise.imp_of_mem ?_ hfil
    intro a b ha hb hab
    have hat : a.1.tconst = t := eq_of_beq (List.mem_filter.mp ha).2
    have hbt : b.1.tconst = t := eq_of_beq (List.mem_filter.mp hb).2
    exact pLe_same_key_oLe hat hbt hab
  rcases List.mem_map.mp he with ⟨q, hq, rfl⟩
  unfold withCast at hq
  rw [leftMerge_eq_map_of_nodup (cast_agg_keys_nodup I)] at hq
  rcases List.mem_map.mp hq with ⟨a, _, rfl⟩
  have hcast : (mkCatalogEntry
      (a, (cast_agg I).find? fun b => b.1 == a.1.1.tconst)).cast_names_top5 =
      if a.1.1.tconst ∈ castKeys I
      then joinBar ((castGroup I a.1.1.tconst).take CAST_TOP_N) else "" := by
    show ((((cast_agg I).find? fun b => b.1 == a.1.1.tconst).map (·.2)).getD "") = _
    rw [find?_cast_agg]
    by_cases ht : a.1.1.tconst ∈ castKeys I
    · rw [if_pos ht, if_pos ht]
      rfl
    · rw [if_neg ht, if_neg ht]
      rfl
  rw [hcast] at hne ⊢
  by_cases ht : a.1.1.tconst ∈ castKeys I
  · rw [if_pos ht] at hne ⊢
    have hgne : castGroup I a.1.1.tconst ≠ [] := castGroup_ne_nil_iff.mp ht
    have hmemfacts : ∀ v ∈ (castGroup I a.1.1.tconst).take CAST_TOP_N,
        v ≠ "" ∧ '|' ∉ v.data := by
      intro v hv
      have hvg : v ∈ castGroup I a.1.1.tconst := List.take_subset _ _ hv
      rcases castGroup_mem_names hvg with ⟨hvne, q', hq', hq'v⟩
      refine ⟨hvne, ?_⟩
      rcases name_map_values_from_source hq' with ⟨c, hc, r, hr, hrv⟩
      have hnosep := hsep c hc r hr q'.2 hrv
      exact hq'v ▸ hnosep
    have htake_ne : (castGroup I a.1.1.tconst).take CAST_TOP_N ≠ [] := by
      rcases hg : castGroup I a.1.1.tconst with _ | ⟨v, vs⟩
      · exact absurd hg hgne
      · simp [CAST_TOP_N]
    refine ⟨?_, ?_, ?_, hpair _⟩
    · exact splitBarS_joinBar htake_ne fun n hn => (hmemfacts n hn).2
    · exact List.length_pos.mpr htake_ne
    · show ((castGroup I a.1.1.tconst).take CAST_TOP_N).length ≤ CAST_TOP_N
      rw [List.length_take]
      exact min_le_left _ _
  · rw [if_neg ht] at hne
    exact absurd rfl hne

theorem c3_witness :
    splitBarS "C" = castNamesSpecList c2Inputs "t1" ∧
    0 < (castNamesSpecList c2Inputs "t1").length ∧
    (castNamesSpecList c2Inputs "t1").length ≤ CAST_TOP_N := by
  have h := c3_amended c2Inputs (by decide)
  have he : CatalogEntry.mk "t1" "X" 1999 120 "Drama" (some (Rat.mk' 15 2)) 5000 "A" "C" ∈
      catalog c2Inputs := by decide
  have h2 := h _ he (by decide)
  exact ⟨h2.1, h2.2.1, h2.2.2.1⟩

end IMDbCatalog
